/-
Verification of the sequence-prediction scoring core of the qtt repository
(the NV-center jump-classification script `nv/example_simple.py` and the
helper `qtt/tools.py`), against its natural-language specification.

The Python code is shallowly embedded: numpy integer arrays become
`List ℕ` / `List ℤ`, float arrays become `List ℚ` (the script only ever
produces ratios of integer counts, so rationals model the float values
exactly), 2-d arrays become `List (List _)`, and the script's `for` loops
become structural recursions.  The helpers `avg_steps` and `two_grams`
live in the external `nvtools.nvtools` module whose source is not part of
this repository; they are modelled from the specification's own
description and marked as such in their doc comments.
-/
import Mathlib

set_option maxHeartbeats 1000000

/-! ### `flatten` from `qtt/tools.py`

`def flatten(lst): return list(chain(*lst))` — concatenation of the inner
lists in order. -/

/-- Embedding of `flatten` (`qtt/tools.py`, lines 355–360):
`list(chain(*lst))` is the left-to-right concatenation of the inner lists. -/
def flatten {α : Type} (lst : List (List α)) : List α :=
  lst.flatten

/-! ### `generate_double2lvl` from `nv/example_simple.py` (lines 152–160)

```
def generate_double2lvl(N, p, q):
    x = np.zeros(N,).astype(int)
    for ii in range(N - 1):
        if np.random.rand() <= p:
            x[ii + 1] = x[ii] ^ 1
        else:
            x[ii + 1] = x[ii] ^ 2
    return x
```

The randomness is abstracted by a stream of coin flips: `coins ii = true`
models the event `np.random.rand() <= p` at iteration `ii`.  The numeric
arguments `p` and `q` only influence the distribution of those flips, so
they do not appear in the embedding. -/

/-- One loop iteration of `generate_double2lvl`: flip bit 0 of the previous
value when the coin says so, otherwise flip bit 1. -/
def gen2Step (x : ℕ) (c : Bool) : ℕ :=
  if c then x ^^^ 1 else x ^^^ 2

/-- Value of the cell `x[ii]` produced by the `generate_double2lvl` loop:
`x[0]` is the initial zero, and `x[ii+1]` is obtained from `x[ii]`. -/
def gen2Val (coins : ℕ → Bool) : ℕ → ℕ
  | 0 => 0
  | ii + 1 => gen2Step (gen2Val coins ii) (coins ii)

/-- Embedding of `generate_double2lvl(N, p, q)`: the returned integer array
of length `N`. -/
def generate_double2lvl (N : ℕ) (coins : ℕ → Bool) : List ℕ :=
  (List.range N).map (gen2Val coins)

/-! ### the `onetwo` / `threefour` label-tracking loop
(`nv/example_simple.py`, lines 119–135)

```
onetwo = np.zeros(len(labels))
threefour = np.zeros(len(labels))
for ii, l in enumerate(labels):
    if ii == 0:
        continue
    if l == 1:
        onetwo[ii] = 1
    elif l == 2:
        onetwo[ii] = 2
    else:
        onetwo[ii] = onetwo[ii - 1]
    if l == 3:
        threefour[ii] = 3
    elif l == 4:
        threefour[ii] = 4
    else:
        threefour[ii] = threefour[ii - 1]
```

Both arrays follow the same pattern with constants `(1, 2)` resp. `(3, 4)`,
so the loop body is embedded once, parameterised by the two constants. -/

/-- The value left in cell `ii` of a tracking array after the loop: cell `0`
keeps its initial zero (the loop `continue`s there), and cell `ii+1` is set
to `v1` when `labels[ii+1] == v1`, to `v2` when `labels[ii+1] == v2`, and to
the previous cell's value otherwise. -/
def trackF (v1 v2 : ℤ) (labels : List ℤ) : ℕ → ℤ
  | 0 => 0
  | ii + 1 =>
    let l := labels.getD (ii + 1) 0
    if l = v1 then v1 else if l = v2 then v2 else trackF v1 v2 labels ii

/-- Embedding of the `onetwo` array after the loop. -/
def onetwo (labels : List ℤ) : List ℤ :=
  (List.range labels.length).map (trackF 1 2 labels)

/-- Embedding of the `threefour` array after the loop. -/
def threefour (labels : List ℤ) : List ℤ :=
  (List.range labels.length).map (trackF 3 4 labels)

/-- Specification-side description of the tracking arrays: the value at the
most recent position `j ∈ [1, i]` whose label satisfies `good` (`0` when no
such position exists). -/
def lastMatchSpec (good : ℤ → Bool) (labels : List ℤ) (i : ℕ) : ℤ :=
  match ((List.range (i + 1)).filter
      (fun j => decide (1 ≤ j) && good (labels.getD j 0))).getLast? with
  | some j => labels.getD j 0
  | none => 0

/-! ### Helper lemmas -/

/-- Reading index `i < N` out of an array built as `np.zeros`-then-fill,
embedded as a map over `List.range N`. -/
theorem getD_map_range {α : Type} (f : ℕ → α) (N i : ℕ) (h : i < N) (d : α) :
    ((List.range N).map f).getD i d = f i := by
  rw [List.getD_eq_getElem _ _ (by simpa using h)]
  simp

/-- Every cell of the `generate_double2lvl` array stays below `4`. -/
theorem gen2Val_lt_four (coins : ℕ → Bool) (i : ℕ) : gen2Val coins i < 4 := by
  induction i with
  | zero => exact Nat.succ_pos 3
  | succ ii ih =>
    show gen2Step (gen2Val coins ii) (coins ii) < 4
    unfold gen2Step
    rcases coins ii with _ | _ <;> simp only [if_true, if_false, Bool.false_eq_true] <;>
      exact Nat.xor_lt_two_pow (n := 2) ih (by norm_num)

/-- Unfolding `lastMatchSpec` one position at a time. -/
theorem lastMatchSpec_succ (good : ℤ → Bool) (labels : List ℤ) (ii : ℕ) :
    lastMatchSpec good labels (ii + 1) =
      if good (labels.getD (ii + 1) 0) then labels.getD (ii + 1) 0
      else lastMatchSpec good labels ii := by
  unfold lastMatchSpec
  rw [List.range_succ, List.filter_append]
  by_cases hg : good (labels.getD (ii + 1) 0)
  · have hg' := hg
    rw [List.getD_eq_getElem?_getD] at hg'
    have hfilter :
        (List.filter (fun j => decide (1 ≤ j) && good (labels.getD j 0)) [ii + 1]) =
          [ii + 1] := by
      simp [hg']
    rw [hfilter, List.getLast?_concat, if_pos hg]
  · have hg' := hg
    rw [List.getD_eq_getElem?_getD] at hg'
    have hfilter :
        (List.filter (fun j => decide (1 ≤ j) && good (labels.getD j 0)) [ii + 1]) = [] := by
      simp [hg']
    rw [hfilter, List.append_nil, if_neg hg]

/-- The tracking recursion computes the most recent matching label. -/
theorem trackF_eq_lastMatchSpec (v1 v2 : ℤ) (labels : List ℤ) (i : ℕ) :
    trackF v1 v2 labels i = lastMatchSpec (fun l => l == v1 || l == v2) labels i := by
  induction i with
  | zero => rfl
  | succ ii ih =>
    rw [lastMatchSpec_succ]
    show (if labels.getD (ii + 1) 0 = v1 then v1
          else if labels.getD (ii + 1) 0 = v2 then v2 else trackF v1 v2 labels ii) = _
    generalize labels.getD (ii + 1) 0 = l
    by_cases h1 : l = v1
    · simp [h1]
    · by_cases h2 : l = v2
      · simp [h1, h2]
        exact fun h => h.symm
      · simp [h1, h2, ih]

/-- The tracking recursion never reads `labels[0]`. -/
theorem trackF_head_irrel (v1 v2 a b : ℤ) (rest : List ℤ) (i : ℕ) :
    trackF v1 v2 (a :: rest) i = trackF v1 v2 (b :: rest) i := by
  induction i with
  | zero => rfl
  | succ ii ih =>
    show (if (a :: rest).getD (ii+1) 0 = v1 then v1
          else if (a :: rest).getD (ii+1) 0 = v2 then v2 else trackF v1 v2 (a :: rest) ii) = _
    rw [List.getD_cons_succ, ih]
    rfl

/-! ### Claim theorems for C10, C8, C9 -/

/-- C10: `flatten` returns the single-level concatenation of the inner
lists in their original order (`flatten [[1,2],[3,4],[10]] = [1,2,3,4,10]`),
and the length of the result is the sum of the inner lengths. -/
theorem flatten_is_ordered_concatenation :
    flatten ([[1, 2], [3, 4], [10]] : List (List ℤ)) = [1, 2, 3, 4, 10] ∧
    flatten ([] : List (List ℤ)) = [] ∧
    (∀ (x : List ℤ) (r : List (List ℤ)), flatten (x :: r) = x ++ flatten r) ∧
    (∀ (l : List (List ℤ)), (flatten l).length = (l.map List.length).sum) := by
  refine ⟨rfl, rfl, fun x r => rfl, fun l => ?_⟩
  simp [flatten]

/-- C8: for `N ≥ 1`, `generate_double2lvl` returns an array of length `N`
starting at `0`, in which each successive element is the previous one XOR 1
or XOR 2; consequently every element lies in `{0, 1, 2, 3}`. -/
theorem generate_double2lvl_invariants (N : ℕ) (coins : ℕ → Bool) (hN : 1 ≤ N) :
    (generate_double2lvl N coins).length = N ∧
    (generate_double2lvl N coins).getD 0 9 = 0 ∧
    (∀ i, i + 1 < N →
      (generate_double2lvl N coins).getD (i + 1) 0 =
          (generate_double2lvl N coins).getD i 0 ^^^ 1 ∨
      (generate_double2lvl N coins).getD (i + 1) 0 =
          (generate_double2lvl N coins).getD i 0 ^^^ 2) ∧
    (∀ x ∈ generate_double2lvl N coins, x = 0 ∨ x = 1 ∨ x = 2 ∨ x = 3) := by
  refine ⟨by simp [generate_double2lvl], ?_, fun i hi => ?_, fun x hx => ?_⟩
  · rw [generate_double2lvl, getD_map_range _ _ _ (by omega)]
    rfl
  · rw [generate_double2lvl, getD_map_range _ _ _ hi, getD_map_range _ _ _ (by omega)]
    show gen2Step (gen2Val coins i) (coins i) = _ ∨ gen2Step (gen2Val coins i) (coins i) = _
    unfold gen2Step
    rcases coins i with _ | _ <;> simp
  · rw [generate_double2lvl, List.mem_map] at hx
    obtain ⟨j, _, rfl⟩ := hx
    have := gen2Val_lt_four coins j
    omega

/-- C9: after the label-tracking loop, `onetwo[0] = 0` and `onetwo[i]`
equals the most recent label among positions `1..i` equal to 1 or 2 (0 when
none exists); `threefour` does the same for 3 and 4; and `labels[0]` never
influences either array. -/
theorem onetwo_threefour_track_last (labels : List ℤ) (i : ℕ) (h : i < labels.length)
    (a b : ℤ) (rest : List ℤ) :
    (onetwo labels).getD i 0 = lastMatchSpec (fun l => l == 1 || l == 2) labels i ∧
    (threefour labels).getD i 0 = lastMatchSpec (fun l => l == 3 || l == 4) labels i ∧
    onetwo (a :: rest) = onetwo (b :: rest) ∧
    threefour (a :: rest) = threefour (b :: rest) := by
  refine ⟨?_, ?_, ?_, ?_⟩
  · rw [onetwo, getD_map_range _ _ _ h, trackF_eq_lastMatchSpec]
  · rw [threefour, getD_map_range _ _ _ h, trackF_eq_lastMatchSpec]
  · rw [onetwo, onetwo]
    simp only [List.length_cons]
    exact List.map_congr_left (fun j _ => trackF_head_irrel 1 2 a b rest j)
  · rw [threefour, threefour]
    simp only [List.length_cons]
    exact List.map_congr_left (fun j _ => trackF_head_irrel 3 4 a b rest j)

/-- Witness for C8: the invariants instantiated at `N = 3` with coins that
always flip system A. -/
theorem generate_double2lvl_invariants_witness :
    1 ≤ 3 ∧
    ((generate_double2lvl 3 (fun _ => true)).length = 3 ∧
     (generate_double2lvl 3 (fun _ => true)).getD 0 9 = 0 ∧
     (∀ i, i + 1 < 3 →
       (generate_double2lvl 3 (fun _ => true)).getD (i + 1) 0 =
           (generate_double2lvl 3 (fun _ => true)).getD i 0 ^^^ 1 ∨
       (generate_double2lvl 3 (fun _ => true)).getD (i + 1) 0 =
           (generate_double2lvl 3 (fun _ => true)).getD i 0 ^^^ 2) ∧
     (∀ x ∈ generate_double2lvl 3 (fun _ => true), x = 0 ∨ x = 1 ∨ x = 2 ∨ x = 3)) :=
  ⟨by decide, generate_double2lvl_invariants 3 (fun _ => true) (by decide)⟩

/-- Witness for C9: the tracking invariants instantiated at
`labels = [5, 1, 0, 2, 7]`, position `4`. -/
theorem onetwo_threefour_track_last_witness :
    4 < ([5, 1, 0, 2, 7] : List ℤ).length ∧
    ((onetwo [5, 1, 0, 2, 7]).getD 4 0 =
        lastMatchSpec (fun l => l == 1 || l == 2) [5, 1, 0, 2, 7] 4 ∧
     (threefour [5, 1, 0, 2, 7]).getD 4 0 =
        lastMatchSpec (fun l => l == 3 || l == 4) [5, 1, 0, 2, 7] 4 ∧
     onetwo (1 :: [1, 2]) = onetwo (2 :: [1, 2]) ∧
     threefour (1 :: [1, 2]) = threefour (2 :: [1, 2])) :=
  ⟨by decide, onetwo_threefour_track_last [5, 1, 0, 2, 7] 4 (by decide) 1 2 [1, 2]⟩

/-! ### the class-probability estimation (`nv/example_simple.py`, lines 81–82
and 182–183)

```
bc = np.bincount(lx)
prob = bc / bc.sum()
```

`lx` is the label sequence encoded as indices.  `np.bincount` of a
non-empty integer array returns the array of occurrence counts of
`0, 1, ..., max(lx)`; on an empty array it returns an empty array.  The
code contains no validation: on empty input `bc.sum()` is `0` and the
elementwise division of the empty array by `0` silently returns an empty
array. -/

/-- Embedding of `np.bincount(xs)`: occurrence counts of `0 .. max xs`
(the empty array for empty input). -/
def bincount (xs : List ℕ) : List ℕ :=
  if xs = [] then []
  else (List.range (xs.foldr max 0 + 1)).map (fun i => xs.count i)

/-- Embedding of `prob = bc / bc.sum()` (elementwise array division;
division by the zero sum never happens elementwise on empty input because
the array has no entries). -/
def prob (xs : List ℕ) : List ℚ :=
  (bincount xs).map (fun c : ℕ => (c : ℚ) / ((bincount xs).sum : ℚ))

/-- Every element of a list of naturals is bounded by the running maximum. -/
theorem le_foldr_max (xs : List ℕ) (x : ℕ) (hx : x ∈ xs) : x ≤ xs.foldr max 0 := by
  induction xs with
  | nil => cases hx
  | cons a t ih =>
    rcases List.mem_cons.mp hx with rfl | hmem
    · exact le_max_left _ _
    · exact le_trans (ih hmem) (le_max_right _ _)

/-- Summing the counts of `0 .. n-1` over a list whose elements all lie
below `n` recovers the list's length. -/
theorem sum_range_count (xs : List ℕ) (n : ℕ) (h : ∀ x ∈ xs, x < n) :
    (∑ i ∈ Finset.range n, xs.count i) = xs.length := by
  induction xs with
  | nil => simp
  | cons a t ih =>
    have ha : a < n := h a (by simp)
    have ht : ∀ x ∈ t, x < n := fun x hx => h x (by simp [hx])
    have hcount : ∀ i, (a :: t).count i = t.count i + if i = a then 1 else 0 := by
      intro i
      rcases eq_or_ne i a with rfl | hne
      · simp [List.count_cons]
      · simp [List.count_cons, hne]
    calc (∑ i ∈ Finset.range n, (a :: t).count i)
        = (∑ i ∈ Finset.range n, (t.count i + if i = a then 1 else 0)) := by
          exact Finset.sum_congr rfl (fun i _ => hcount i)
      _ = (∑ i ∈ Finset.range n, t.count i) +
            (∑ i ∈ Finset.range n, if i = a then 1 else 0) := Finset.sum_add_distrib
      _ = t.length + 1 := by
          rw [ih ht, Finset.sum_ite_eq' (Finset.range n) a (fun _ => 1)]
          simp [ha]
      _ = (a :: t).length := by simp

/-- `bincount` of a non-empty list has `max + 1` cells. -/
theorem bincount_length (xs : List ℕ) (h : xs ≠ []) :
    (bincount xs).length = xs.foldr max 0 + 1 := by
  simp [bincount, h]

/-- The cells of `bincount` sum to the length of the input. -/
theorem bincount_sum (xs : List ℕ) : (bincount xs).sum = xs.length := by
  by_cases h : xs = []
  · simp [bincount, h]
  · rw [bincount, if_neg h]
    show (∑ i ∈ Finset.range (xs.foldr max 0 + 1), xs.count i) = xs.length
    exact sum_range_count xs _ (fun x hx => Nat.lt_succ_of_le (le_foldr_max xs x hx))

/-- Cell `v` of `bincount xs` holds the number of occurrences of `v`. -/
theorem bincount_getD (xs : List ℕ) (v : ℕ) (hv : v ∈ xs) :
    (bincount xs).getD v 0 = xs.count v := by
  have hne : xs ≠ [] := List.ne_nil_of_mem hv
  rw [bincount, if_neg hne]
  exact getD_map_range _ _ _ (Nat.lt_succ_of_le (le_foldr_max xs v hv)) 0

/-- Dividing every cell by a constant and summing equals dividing the sum. -/
theorem sum_map_cast_div (l : List ℕ) (b : ℚ) :
    (l.map (fun c : ℕ => (c : ℚ) / b)).sum = ((l.sum : ℕ) : ℚ) / b := by
  induction l with
  | nil => simp
  | cons a t ih => simp [ih, add_div]

/-- Cell `v` of `prob xs` holds the relative frequency of `v` in `xs`. -/
theorem prob_getD (xs : List ℕ) (v : ℕ) (hv : v ∈ xs) :
    (prob xs).getD v 0 = (xs.count v : ℚ) / (xs.length : ℚ) := by
  have hne : xs ≠ [] := List.ne_nil_of_mem hv
  have hvlt : v < (bincount xs).length := by
    rw [bincount_length xs hne]
    exact Nat.lt_succ_of_le (le_foldr_max xs v hv)
  have hmaplen : v <
      ((bincount xs).map (fun c : ℕ => (c : ℚ) / ((bincount xs).sum : ℚ))).length := by
    simpa using hvlt
  have hcell : (bincount xs).get ⟨v, hvlt⟩ = xs.count v := by
    have hd := bincount_getD xs v hv
    rwa [List.getD_eq_getElem _ _ hvlt] at hd
  rw [prob, List.getD_eq_getElem _ _ hmaplen, List.getElem_map]
  rw [show (bincount xs)[v] = xs.count v from hcell, bincount_sum]

/-! ### Claim theorems for C5, C6, C3 -/

/-- C5: for every non-empty sequence, the class-probability estimation
assigns each distinct label `count(label) / length(sequence)`, and the
resulting probabilities are non-negative and sum to exactly 1 (the
rational-arithmetic embedding is exact, hence within any floating-point
tolerance). -/
theorem prob_is_relative_frequencies (xs : List ℕ) (h : xs ≠ []) :
    (∀ v ∈ xs, (prob xs).getD v 0 = (xs.count v : ℚ) / (xs.length : ℚ)) ∧
    (∀ q ∈ prob xs, 0 ≤ q) ∧
    (prob xs).sum = 1 := by
  refine ⟨fun v hv => prob_getD xs v hv, fun q hq => ?_, ?_⟩
  · rw [prob] at hq
    obtain ⟨c, _, rfl⟩ := List.mem_map.mp hq
    exact div_nonneg (Nat.cast_nonneg c) (Nat.cast_nonneg _)
  · have hlen : (xs.length : ℚ) ≠ 0 :=
      Nat.cast_ne_zero.mpr (List.length_pos.mpr h).ne'
    rw [prob, sum_map_cast_div, bincount_sum]
    exact div_self hlen

/-- Witness for C5 at the sequence `[0, 0, 1, 1, 0, 1]`. -/
theorem prob_is_relative_frequencies_witness :
    ([0, 0, 1, 1, 0, 1] : List ℕ) ≠ [] ∧
    ((∀ v ∈ ([0, 0, 1, 1, 0, 1] : List ℕ), (prob [0, 0, 1, 1, 0, 1]).getD v 0 =
        (([0, 0, 1, 1, 0, 1] : List ℕ).count v : ℚ) /
          (([0, 0, 1, 1, 0, 1] : List ℕ).length : ℚ)) ∧
     (∀ q ∈ prob [0, 0, 1, 1, 0, 1], 0 ≤ q) ∧
     (prob [0, 0, 1, 1, 0, 1]).sum = 1) :=
  ⟨by decide, prob_is_relative_frequencies [0, 0, 1, 1, 0, 1] (by decide)⟩

/-- C6: on the sequence `[0,0,1,1,0,1]` the class-probability estimation
yields probability `1/2` for label `0` and `1/2` for label `1`. -/
theorem prob_example_half_half : prob [0, 0, 1, 1, 0, 1] = [1/2, 1/2] := by
  have h : ([0, 0, 1, 1, 0, 1] : List ℕ) ≠ [] := by decide
  norm_num [prob, bincount, List.range_succ, if_neg h]

/-- C3 counterexample: the class-probability code does not reject the empty
sequence.  There is no validation in `prob = np.bincount(lx) / bc.sum()`:
`np.bincount` of an empty array is the empty array and the elementwise
division of an empty array (by the zero sum) silently yields an empty
array, so the call returns normally instead of raising an
input-validation failure. -/
theorem prob_empty_counterexample : prob [] = [] ∧ bincount [] = [] :=
  ⟨rfl, rfl⟩

/-- C3 amended: on an empty sequence the class-probability estimation is
not rejected — it returns an empty result without any failure; on
non-empty input the computation is total and returns one cell per value
in `0 .. max`. -/
theorem prob_empty_amended (xs : List ℕ) (h : xs ≠ []) :
    prob [] = [] ∧ (prob xs).length = xs.foldr max 0 + 1 := by
  refine ⟨rfl, ?_⟩
  simp [prob, bincount_length xs h]

/-- Witness for the amended C3 at the sequence `[7]`. -/
theorem prob_empty_amended_witness :
    ([7] : List ℕ) ≠ [] ∧
    (prob [] = [] ∧ (prob [7]).length = ([7] : List ℕ).foldr max 0 + 1) :=
  ⟨by decide, prob_empty_amended [7] (by decide)⟩

/-! ### the bigram transition-count model and its use for scoring
(`nv/example_simple.py`, lines 176–210)

```
chars = sorted(list(set(labels)))
char_indices = dict((c, i) for i, c in enumerate(chars))
labelsX = [char_indices[c] for c in labels]
gg = two_grams(alphabet, labels)
y_pred2 = np.vstack((prob, gg[:, labelsX[:-1]].T))
```

`alphabet = encoder.classes_` equals `chars` (the sorted distinct labels).
`two_grams` itself lives in `nvtools.nvtools`, outside this repository. -/

/-- Modelled from the spec: `two_grams(alphabet, sequence)` of
`nvtools.nvtools`, whose source is not in this repository.  Spec §4.1: for
every adjacent pair `(sequence[i], sequence[i+1])` increment a count at
`(row = symbol index of sequence[i+1], column = symbol index of
sequence[i])`; the result is the raw (unnormalized) `|alphabet| ×
|alphabet|` count matrix indexed `[next][current]`. -/
def two_grams (alphabet : List ℤ) (seq : List ℤ) : List (List ℕ) :=
  alphabet.map (fun nxt => alphabet.map (fun cur =>
    (seq.zip seq.tail).countP (fun pr => pr.1 == cur && pr.2 == nxt)))

/-- Embedding of `chars = sorted(list(set(labels)))` (also
`encoder.classes_`): the distinct labels in increasing order. -/
def chars (labels : List ℤ) : List ℤ :=
  List.insertionSort (· ≤ ·) labels.dedup

/-- Embedding of `labelsX = [char_indices[c] for c in labels]`: each label
replaced by its index in `chars`. -/
def labelsX (labels : List ℤ) : List ℕ :=
  labels.map (fun c => (chars labels).indexOf c)

/-- Column `j` of a count matrix: the numpy slice `gg[:, j]`. -/
def column (m : List (List ℕ)) (j : ℕ) : List ℕ :=
  m.map (fun row => row.getD j 0)

/-- Embedding of `y_pred2 = np.vstack((prob, gg[:, labelsX[:-1]].T))`
(line 210): the first prediction row is the zeroth-order class-probability
vector, and row `i+1` is column `labelsX[i]` of the bigram count matrix
(numpy upcasts the integer counts to float when stacking; the embedding
casts them to `ℚ`). -/
def y_pred2 (labels : List ℤ) : List (List ℚ) :=
  prob (labelsX labels) ::
    (labelsX labels).dropLast.map
      (fun j => (column (two_grams (chars labels) labels) j).map (fun c : ℕ => (c : ℚ)))

/-- Entry `(r, c)` of the bigram matrix counts the adjacent pairs whose
current symbol is `alphabet[c]` and next symbol is `alphabet[r]`. -/
theorem getD_map_of_lt {α β : Type} (f : α → β) (l : List α) (i : ℕ) (h : i < l.length)
    (d : β) : (l.map f).getD i d = f (l.get ⟨i, h⟩) := by
  rw [List.getD_eq_getElem _ _ (by simpa using h), List.getElem_map]
  rfl

theorem two_grams_entry (alph seq : List ℤ) (r c : ℕ)
    (hr : r < alph.length) (hc : c < alph.length) :
    ((two_grams alph seq).getD r []).getD c 0 =
      (seq.zip seq.tail).countP
        (fun pr => pr.1 == alph.getD c 0 && pr.2 == alph.getD r 0) := by
  rw [two_grams, getD_map_of_lt _ _ _ hr, getD_map_of_lt _ _ _ hc]
  rw [List.getD_eq_getElem _ _ hc, List.getD_eq_getElem _ _ hr]
  rfl

/-- Row `i+1` of `y_pred2` is the single column lookup `gg[:, labelsX[i]]`
(cast to rationals), with no further transformation. -/
theorem y_pred2_row (labels : List ℤ) (i : ℕ) (hi : i + 1 < labels.length) :
    (y_pred2 labels).getD (i + 1) [] =
      (column (two_grams (chars labels) labels) ((labelsX labels).getD i 0)).map
        (fun c : ℕ => (c : ℚ)) := by
  have hlx : (labelsX labels).length = labels.length := by simp [labelsX]
  have hdl : i < ((labelsX labels).dropLast).length := by
    simp only [List.length_dropLast, hlx]
    omega
  have hdl' : i < ((labelsX labels).dropLast.map
      (fun j => (column (two_grams (chars labels) labels) j).map
        (fun c : ℕ => (c : ℚ)))).length := by
    simpa using hdl
  rw [y_pred2, List.getD_cons_succ, List.getD_eq_getElem _ _ hdl', List.getElem_map]
  have hidx : ((labelsX labels).dropLast)[i] = (labelsX labels).getD i 0 := by
    rw [List.getElem_dropLast, List.getD_eq_getElem _ _ (by omega : i < (labelsX labels).length)]
  rw [hidx]

/-- A label occurring in the sequence occurs in the sorted distinct
alphabet `chars`. -/
theorem mem_chars (labels : List ℤ) (x : ℤ) (hx : x ∈ labels) : x ∈ chars labels := by
  rw [chars]
  exact (List.perm_insertionSort _ _).mem_iff.mpr (List.mem_dedup.mpr hx)

/-- Decoding an encoded label index recovers the label. -/
theorem chars_getD_indexOf (labels : List ℤ) (x : ℤ) (hx : x ∈ labels) :
    (chars labels).getD ((chars labels).indexOf x) 0 = x := by
  have hm : x ∈ chars labels := mem_chars labels x hx
  have hlt : (chars labels).indexOf x < (chars labels).length :=
    List.indexOf_lt_length.mpr hm
  rw [List.getD_eq_getElem _ _ hlt]
  exact List.indexOf_get hlt

/-- The encoded sequence entry `labelsX[i]` is the alphabet index of
`labels[i]`. -/
theorem labelsX_getD (labels : List ℤ) (i : ℕ) (hi : i < labels.length) :
    (labelsX labels).getD i 0 = (chars labels).indexOf (labels.getD i 0) := by
  rw [labelsX, getD_map_of_lt _ _ _ hi, List.getD_eq_getElem _ _ hi]
  rfl

/-- Cell `r` of a matrix column is cell `j` of row `r`. -/
theorem column_getD (m : List (List ℕ)) (j r : ℕ) (hr : r < m.length) :
    (column m j).getD r 0 = (m.getD r []).getD j 0 := by
  rw [column, getD_map_of_lt _ _ _ hr, List.getD_eq_getElem _ _ hr]
  rfl

/-- Entry `r` of the scoring row `i+1` of `y_pred2` is the number of
observed transitions from `labels[i]` to the alphabet symbol `chars[r]`. -/
theorem y_pred2_row_entry (labels : List ℤ) (i r : ℕ)
    (hi : i + 1 < labels.length) (hr : r < (chars labels).length) :
    ((y_pred2 labels).getD (i + 1) []).getD r 0 =
      ((labels.zip labels.tail).countP
        (fun pr => pr.1 == labels.getD i 0 && pr.2 == (chars labels).getD r 0) : ℚ) := by
  have hmem : labels.getD i 0 ∈ labels := by
    rw [List.getD_eq_getElem _ _ (by omega : i < labels.length)]
    exact List.getElem_mem _
  have hj : (chars labels).indexOf (labels.getD i 0) < (chars labels).length :=
    List.indexOf_lt_length.mpr (mem_chars labels _ hmem)
  have hcols : (column (two_grams (chars labels) labels) ((labelsX labels).getD i 0)).length =
      (chars labels).length := by
    simp [column, two_grams]
  rw [y_pred2_row labels i hi, getD_map_of_lt _ _ _ (by rw [hcols]; exact hr)]
  rw [show (column (two_grams (chars labels) labels) ((labelsX labels).getD i 0)).get
        ⟨r, by rw [hcols]; exact hr⟩ =
      (column (two_grams (chars labels) labels) ((labelsX labels).getD i 0)).getD r 0 from
    (List.getD_eq_getElem _ _ (by rw [hcols]; exact hr)).symm]
  rw [column_getD _ _ _ (by simpa [two_grams] using hr)]
  rw [labelsX_getD labels i (by omega)]
  rw [two_grams_entry (chars labels) labels r _ hr hj]
  rw [chars_getD_indexOf labels _ hmem]

/-! ### Claim theorems for C7, C2, C4 -/

/-- C7: the class-probability estimation and the transition-count
estimation are pure functions of their inputs — two calls on equal
(immutable) inputs return identical results, with no hidden state. -/
theorem prob_two_grams_stateless (xs ys : List ℕ) (alph1 seq1 alph2 seq2 : List ℤ)
    (h1 : xs = ys) (h2 : alph1 = alph2) (h3 : seq1 = seq2) :
    prob xs = prob ys ∧ two_grams alph1 seq1 = two_grams alph2 seq2 := by
  subst h1
  subst h2
  subst h3
  exact ⟨rfl, rfl⟩

/-- Witness for C7 on concrete repeated inputs. -/
theorem prob_two_grams_stateless_witness :
    (([0, 0, 1] : List ℕ) = [0, 0, 1] ∧ ([0, 1] : List ℤ) = [0, 1] ∧
      ([0, 1, 1] : List ℤ) = [0, 1, 1]) ∧
    (prob [0, 0, 1] = prob [0, 0, 1] ∧
      two_grams [0, 1] [0, 1, 1] = two_grams [0, 1] [0, 1, 1]) :=
  ⟨⟨rfl, rfl, rfl⟩,
    prob_two_grams_stateless [0, 0, 1] [0, 0, 1] [0, 1] [0, 1, 1] [0, 1] [0, 1, 1]
      rfl rfl rfl⟩

/-- C2 counterexample: for alphabet `{0,1}` and sequence `[0,1,0,1,0,1]`
the raw bigram count matrix is `[[0,2],[3,0]]`, not `[[0,3],[3,0]]` as
claimed: the sequence has only five adjacent pairs — `0→1` occurs three
times but `1→0` only twice. -/
theorem two_grams_example_matrix_counterexample :
    two_grams [0, 1] [0, 1, 0, 1, 0, 1] ≠ [[0, 3], [3, 0]] ∧
    two_grams [0, 1] [0, 1, 0, 1, 0, 1] = [[0, 2], [3, 0]] := by
  decide

/-- C2 amended: the bigram matrix is indexed `[next][current]` (cell
`(r, c)` counts pairs with current symbol `alphabet[c]` and next symbol
`alphabet[r]`); for alphabet `{0,1}` and sequence `[0,1,0,1,0,1]` the raw
count matrix is `[[0,2],[3,0]]`; and the scoring code obtains all
next-symbol predictions given the current symbol by a single column
lookup: cell `r` of scoring row `i+1` of `y_pred2` is the count of
transitions `labels[i] → chars[r]`. -/
theorem two_grams_next_current_indexing :
    two_grams [0, 1] [0, 1, 0, 1, 0, 1] = [[0, 2], [3, 0]] ∧
    (∀ (alph seq : List ℤ) (r c : ℕ), r < alph.length → c < alph.length →
      ((two_grams alph seq).getD r []).getD c 0 =
        (seq.zip seq.tail).countP
          (fun pr => pr.1 == alph.getD c 0 && pr.2 == alph.getD r 0)) ∧
    (∀ (labels : List ℤ) (i r : ℕ), i + 1 < labels.length → r < (chars labels).length →
      ((y_pred2 labels).getD (i + 1) []).getD r 0 =
        ((labels.zip labels.tail).countP
          (fun pr => pr.1 == labels.getD i 0 && pr.2 == (chars labels).getD r 0) : ℚ)) :=
  ⟨by decide, two_grams_entry, y_pred2_row_entry⟩

/-- Witness for the amended C2 at alphabet `[0,1]`, sequence `[0,1,0]`. -/
theorem two_grams_next_current_indexing_witness :
    (1 < ([0, 1] : List ℤ).length ∧ 0 < ([0, 1] : List ℤ).length ∧
      1 + 1 < ([0, 1, 0] : List ℤ).length ∧ 1 < (chars [0, 1, 0]).length) ∧
    (two_grams [0, 1] [0, 1, 0, 1, 0, 1] = [[0, 2], [3, 0]] ∧
     ((two_grams [0, 1] [0, 1, 0]).getD 1 []).getD 0 0 =
       (([0, 1, 0] : List ℤ).zip ([0, 1, 0] : List ℤ).tail).countP
         (fun pr => pr.1 == ([0, 1] : List ℤ).getD 0 0 &&
           pr.2 == ([0, 1] : List ℤ).getD 1 0) ∧
     ((y_pred2 [0, 1, 0]).getD (1 + 1) []).getD 1 0 =
       ((([0, 1, 0] : List ℤ).zip ([0, 1, 0] : List ℤ).tail).countP
         (fun pr => pr.1 == ([0, 1, 0] : List ℤ).getD 1 0 &&
           pr.2 == (chars [0, 1, 0]).getD 1 0) : ℚ)) := by
  refine ⟨⟨by decide, by decide, by decide, by decide⟩, ?_, ?_, ?_⟩
  · exact two_grams_next_current_indexing.1
  · exact two_grams_next_current_indexing.2.1 [0, 1] [0, 1, 0] 1 0 (by decide) (by decide)
  · exact two_grams_next_current_indexing.2.2 [0, 1, 0] 1 1 (by decide) (by decide)

/-- C4 counterexample: the caller does not normalize.  For the sequence
`[0,1,0,1,0,1]` the scoring row `y_pred2[1]` (the prediction for position
1, current symbol `0`) is the raw count column `[0, 3]`, whose entries sum
to `3`, not the normalized distribution `[0, 1]` that dividing the column
by its column sum would give (the commented-out line 196 `#gg /= ...`
never runs). -/
theorem y_pred2_not_normalized_counterexample :
    (y_pred2 [0, 1, 0, 1, 0, 1]).getD 1 [] = [(0 : ℚ), 3] ∧
    (y_pred2 [0, 1, 0, 1, 0, 1]).getD 1 [] ≠ [(0 : ℚ), 1] ∧
    ((y_pred2 [0, 1, 0, 1, 0, 1]).getD 1 []).sum = 3 := by
  have h : (y_pred2 [0, 1, 0, 1, 0, 1]).getD 1 [] = [(0 : ℚ), 3] := by decide
  refine ⟨h, ?_, ?_⟩
  · rw [h]
    intro hc
    have h31 : (3 : ℚ) = 1 := by injection hc with h1 h2; injection h2 with h3 h4
    norm_num at h31
  · rw [h]
    norm_num

/-- C4 amended: the transition-count operation returns raw non-negative
integer counts (each cell is literally a pair count, never normalized),
and the caller does NOT divide columns by their column sums before
scoring — the scoring rows of `y_pred2` are the raw count columns
themselves, merely upcast to float by the stacking. -/
theorem two_grams_raw_counts_unnormalized :
    (∀ (alph seq : List ℤ) (r c : ℕ), r < alph.length → c < alph.length →
      ((two_grams alph seq).getD r []).getD c 0 =
        (seq.zip seq.tail).countP
          (fun pr => pr.1 == alph.getD c 0 && pr.2 == alph.getD r 0)) ∧
    (∀ (labels : List ℤ) (i : ℕ), i + 1 < labels.length →
      (y_pred2 labels).getD (i + 1) [] =
        (column (two_grams (chars labels) labels) ((labelsX labels).getD i 0)).map
          (fun c : ℕ => (c : ℚ))) :=
  ⟨two_grams_entry, y_pred2_row⟩

/-- Witness for the amended C4 at alphabet `[1,2]`, sequence `[1,2,1]`. -/
theorem two_grams_raw_counts_unnormalized_witness :
    (1 < ([1, 2] : List ℤ).length ∧ 0 < ([1, 2] : List ℤ).length ∧
      0 + 1 < ([1, 2, 1] : List ℤ).length) ∧
    (((two_grams [1, 2] [1, 2, 1]).getD 1 []).getD 0 0 =
       (([1, 2, 1] : List ℤ).zip ([1, 2, 1] : List ℤ).tail).countP
         (fun pr => pr.1 == ([1, 2] : List ℤ).getD 0 0 &&
           pr.2 == ([1, 2] : List ℤ).getD 1 0) ∧
     (y_pred2 [1, 2, 1]).getD (0 + 1) [] =
       (column (two_grams (chars [1, 2, 1]) [1, 2, 1]) ((labelsX [1, 2, 1]).getD 0 0)).map
         (fun c : ℕ => (c : ℚ))) := by
  refine ⟨⟨by decide, by decide, by decide⟩, ?_, ?_⟩
  · exact two_grams_raw_counts_unnormalized.1 [1, 2] [1, 2, 1] 1 0 (by decide) (by decide)
  · exact two_grams_raw_counts_unnormalized.2 [1, 2, 1] 0 (by decide)

/-! ### the expected-steps scoring `avg_steps`
(called at `nv/example_simple.py` lines 86, 142, 214–218; defined in the
external `nvtools.nvtools` module, outside this repository) -/

/-- Modelled from the spec: the per-position rank computation inside
`avg_steps` of `nvtools.nvtools` (source not in this repository).  Spec
§4.1: sort the predicted distribution's symbol indices by probability
descending with the deterministic stable tie-break "lower symbol index
wins ties", and take the 1-based position of the true label in that
order.  `insertionSort` with the non-strict descending comparison is a
stable sort, so starting from the ascending index list `range p.length`
it realises exactly this order. -/
def rankOf (p : List ℚ) (t : ℕ) : ℕ :=
  (List.insertionSort (fun i j => p.getD j 0 ≤ p.getD i 0)
    (List.range p.length)).indexOf t + 1

/-- Modelled from the spec: `avg_steps(trueLabels, y_pred)` of
`nvtools.nvtools` (source not in this repository).  Spec §4.1: the mean
over all positions of the 1-based rank of the true label within the
position's predicted distribution. -/
def avg_steps (trueLabels : List ℕ) (y_pred : List (List ℚ)) : ℚ :=
  ((trueLabels.zip y_pred).map (fun pr => (rankOf pr.2 pr.1 : ℚ))).sum /
    (trueLabels.length : ℚ)

/-- Ranks are 1-based, hence at least `1`. -/
theorem one_le_rankOf (p : List ℚ) (t : ℕ) : 1 ≤ rankOf p t :=
  Nat.succ_le_succ (Nat.zero_le _)

/-- The rank of a valid symbol index never exceeds the alphabet size. -/
theorem rankOf_le_length (p : List ℚ) (t : ℕ) (ht : t < p.length) :
    rankOf p t ≤ p.length := by
  have hperm :=
    List.perm_insertionSort (fun i j => p.getD j 0 ≤ p.getD i 0) (List.range p.length)
  have hmem : t ∈ List.insertionSort (fun i j => p.getD j 0 ≤ p.getD i 0)
      (List.range p.length) :=
    hperm.mem_iff.mpr (List.mem_range.mpr ht)
  have hlt := List.indexOf_lt_length.mpr hmem
  have hlen : (List.insertionSort (fun i j => p.getD j 0 ≤ p.getD i 0)
      (List.range p.length)).length = p.length := by
    rw [hperm.length_eq, List.length_range]
  show (List.insertionSort (fun i j => p.getD j 0 ≤ p.getD i 0)
      (List.range p.length)).indexOf t + 1 ≤ p.length
  omega

/-- In a list of non-negative rationals every entry is at most the sum. -/
theorem getD_le_sum_of_nonneg (p : List ℚ) (hnn : ∀ q ∈ p, 0 ≤ q) (j : ℕ)
    (hj : j < p.length) : p.getD j 0 ≤ p.sum := by
  induction p generalizing j with
  | nil => simp at hj
  | cons a t ih =>
    have hat : 0 ≤ a := hnn a (by simp)
    have htn : ∀ q ∈ t, 0 ≤ q := fun q hq => hnn q (by simp [hq])
    rcases j with _ | j'
    · simp only [List.getD_cons_zero, List.sum_cons]
      have htsum : 0 ≤ t.sum := List.sum_nonneg htn
      linarith
    · simp only [List.getD_cons_succ, List.sum_cons]
      have := ih htn j' (by simpa using hj)
      linarith

/-- In a list of non-negative rationals any two distinct entries together
are at most the sum. -/
theorem two_getD_le_sum (p : List ℚ) (hnn : ∀ q ∈ p, 0 ≤ q) (i j : ℕ)
    (hij : i < j) (hj : j < p.length) : p.getD i 0 + p.getD j 0 ≤ p.sum := by
  induction p generalizing i j with
  | nil => simp at hj
  | cons a t ih =>
    have hat : 0 ≤ a := hnn a (by simp)
    have htn : ∀ q ∈ t, 0 ≤ q := fun q hq => hnn q (by simp [hq])
    rcases i with _ | i'
    · rcases j with _ | j'
      · omega
      · simp only [List.getD_cons_zero, List.getD_cons_succ, List.sum_cons]
        have := getD_le_sum_of_nonneg t htn j' (by simpa using hj)
        linarith
    · rcases j with _ | j'
      · omega
      · simp only [List.getD_cons_succ, List.sum_cons]
        have := ih htn i' j' (by omega) (by simpa using hj)
        linarith

/-- A probability distribution that puts mass `1` on index `t` is zero
everywhere else. -/
theorem entries_zero_of_perfect (p : List ℚ) (t : ℕ) (ht : t < p.length)
    (h1 : p.getD t 0 = 1) (hnn : ∀ q ∈ p, 0 ≤ q) (hs : p.sum = 1)
    (j : ℕ) (hj : j < p.length) (hne : j ≠ t) : p.getD j 0 = 0 := by
  have hjnn : 0 ≤ p.getD j 0 := by
    rw [List.getD_eq_getElem _ _ hj]
    exact hnn _ (List.getElem_mem _)
  rcases Nat.lt_or_ge j t with hlt | hge
  · have := two_getD_le_sum p hnn j t hlt ht
    rw [h1, hs] at this
    linarith
  · have hlt' : t < j := lt_of_le_of_ne hge (Ne.symm hne)
    have := two_getD_le_sum p hnn t j hlt' hj
    rw [h1, hs] at this
    linarith

/-- A perfect prediction (probability `1` on the true label) has rank `1`:
the true label comes first in the descending stable sort. -/
theorem rankOf_perfect (p : List ℚ) (t : ℕ) (ht : t < p.length)
    (h1 : p.getD t 0 = 1) (hnn : ∀ q ∈ p, 0 ≤ q) (hs : p.sum = 1) :
    rankOf p t = 1 := by
  have hperm :=
    List.perm_insertionSort (fun i j => p.getD j 0 ≤ p.getD i 0) (List.range p.length)
  haveI : IsTotal ℕ (fun i j => p.getD j 0 ≤ p.getD i 0) :=
    ⟨fun a b => le_total (p.getD b 0) (p.getD a 0)⟩
  haveI : IsTrans ℕ (fun i j => p.getD j 0 ≤ p.getD i 0) :=
    ⟨fun a b c hab hbc => le_trans hbc hab⟩
  have hsorted :=
    List.sorted_insertionSort (fun i j => p.getD j 0 ≤ p.getD i 0) (List.range p.length)
  have hmem : t ∈ List.insertionSort (fun i j => p.getD j 0 ≤ p.getD i 0)
      (List.range p.length) :=
    hperm.mem_iff.mpr (List.mem_range.mpr ht)
  rw [rankOf]
  cases hsort_eq : List.insertionSort (fun i j => p.getD j 0 ≤ p.getD i 0)
      (List.range p.length) with
  | nil =>
    rw [hsort_eq] at hmem
    cases hmem
  | cons e rest =>
    rw [hsort_eq] at hmem hsorted hperm
    by_cases he : e = t
    · rw [he, List.indexOf_cons_self]
    · exfalso
      have htmem : t ∈ rest := by
        rcases List.mem_cons.mp hmem with h | h
        · exact absurd h.symm he
        · exact h
      have hrel : p.getD t 0 ≤ p.getD e 0 := (List.pairwise_cons.mp hsorted).1 t htmem
      have hemem : e ∈ List.range p.length := hperm.subset (List.mem_cons_self e rest)
      have helt : e < p.length := List.mem_range.mp hemem
      have hezero : p.getD e 0 = 0 := entries_zero_of_perfect p t ht h1 hnn hs e helt he
      rw [h1, hezero] at hrel
      linarith

/-! ### Claim theorem for C1 -/

/-- C1: for `N` true labels and `N` predicted distributions over an
alphabet of `k` symbols, the average-steps score lies in `[1, k]`; and if
at every position the predicted distribution assigns probability `1` to
the true label, the score is exactly `1`. -/
theorem avg_steps_bounds_and_perfect (trueLabels : List ℕ) (y_pred : List (List ℚ))
    (k : ℕ) (hne : trueLabels ≠ [])
    (hlen : y_pred.length = trueLabels.length)
    (hk : ∀ p ∈ y_pred, p.length = k)
    (ht : ∀ t ∈ trueLabels, t < k) :
    (1 ≤ avg_steps trueLabels y_pred ∧ avg_steps trueLabels y_pred ≤ (k : ℚ)) ∧
    ((∀ p ∈ y_pred, (∀ q ∈ p, 0 ≤ q) ∧ p.sum = 1) →
      (∀ pr ∈ trueLabels.zip y_pred, pr.2.getD pr.1 0 = 1) →
      avg_steps trueLabels y_pred = 1) := by
  set L := (trueLabels.zip y_pred).map (fun pr => (rankOf pr.2 pr.1 : ℚ)) with hL
  have hLlen : L.length = trueLabels.length := by
    rw [hL, List.length_map, List.length_zip, hlen, min_self]
  have hN : 0 < trueLabels.length := List.length_pos.mpr hne
  have hNQ : (0 : ℚ) < (trueLabels.length : ℚ) := by exact_mod_cast hN
  have havg : avg_steps trueLabels y_pred = L.sum / (trueLabels.length : ℚ) := rfl
  have hbound : ∀ x ∈ L, 1 ≤ x ∧ x ≤ (k : ℚ) := by
    intro x hx
    obtain ⟨pr, hpr, rfl⟩ := List.mem_map.mp hx
    have h12 := List.of_mem_zip hpr
    have hkp : pr.2.length = k := hk pr.2 h12.2
    have htk : pr.1 < pr.2.length := by
      rw [hkp]
      exact ht pr.1 h12.1
    refine ⟨by exact_mod_cast one_le_rankOf pr.2 pr.1, ?_⟩
    have hle := rankOf_le_length pr.2 pr.1 htk
    rw [hkp] at hle
    exact_mod_cast hle
  refine ⟨⟨?_, ?_⟩, ?_⟩
  · have h1 : L.length • (1 : ℚ) ≤ L.sum :=
      List.card_nsmul_le_sum L 1 (fun x hx => (hbound x hx).1)
    rw [nsmul_eq_mul, hLlen, mul_one] at h1
    rw [havg, le_div_iff₀ hNQ]
    linarith
  · have h2 : L.sum ≤ L.length • (k : ℚ) :=
      List.sum_le_card_nsmul L (k : ℚ) (fun x hx => (hbound x hx).2)
    rw [nsmul_eq_mul, hLlen] at h2
    rw [havg, div_le_iff₀ hNQ]
    linarith [mul_comm ((trueLabels.length : ℕ) : ℚ) ((k : ℕ) : ℚ)]
  · intro hdist hperf
    have hall1 : ∀ x ∈ L, x = 1 := by
      intro x hx
      obtain ⟨pr, hpr, rfl⟩ := List.mem_map.mp hx
      have h12 := List.of_mem_zip hpr
      have hkp : pr.2.length = k := hk pr.2 h12.2
      have htk : pr.1 < pr.2.length := by
        rw [hkp]
        exact ht pr.1 h12.1
      have hd := hdist pr.2 h12.2
      have hp1 := hperf pr hpr
      have hr1 := rankOf_perfect pr.2 pr.1 htk hp1 hd.1 hd.2
      exact_mod_cast hr1
    have hsum := List.sum_eq_card_nsmul L 1 hall1
    rw [nsmul_eq_mul, hLlen, mul_one] at hsum
    rw [havg, hsum, div_self (ne_of_gt hNQ)]

/-- Witness for C1 at the perfect two-symbol predictor
`trueLabels = [0, 1]`, `y_pred = [[1, 0], [0, 1]]`, `k = 2`. -/
theorem avg_steps_bounds_and_perfect_witness :
    (([0, 1] : List ℕ) ≠ [] ∧
     ([[1, 0], [0, 1]] : List (List ℚ)).length = ([0, 1] : List ℕ).length ∧
     (∀ p ∈ ([[1, 0], [0, 1]] : List (List ℚ)), p.length = 2) ∧
     (∀ t ∈ ([0, 1] : List ℕ), t < 2)) ∧
    ((1 ≤ avg_steps [0, 1] [[1, 0], [0, 1]] ∧
        avg_steps [0, 1] [[1, 0], [0, 1]] ≤ ((2 : ℕ) : ℚ)) ∧
     ((∀ p ∈ ([[1, 0], [0, 1]] : List (List ℚ)), (∀ q ∈ p, 0 ≤ q) ∧ p.sum = 1) →
       (∀ pr ∈ ([0, 1] : List ℕ).zip ([[1, 0], [0, 1]] : List (List ℚ)),
         pr.2.getD pr.1 0 = 1) →
       avg_steps [0, 1] [[1, 0], [0, 1]] = 1)) :=
  ⟨⟨by decide, rfl, by decide, by decide⟩,
    avg_steps_bounds_and_perfect [0, 1] [[1, 0], [0, 1]] 2
      (by decide) rfl (by decide) (by decide)⟩
